import Mathlib

/-!
Shallow embedding of `langtoolkit/tool.py`: the `UnifiedToolHub` aggregator
(name resolution, query normalization, hash-embedding fallback, and the
retrieval ranker `query_tools`), together with proofs of the specified
properties.

Modelling conventions:
* Python `dict` (insertion-ordered, unique keys) is modelled as an
  association list `List (String × α)`; assignment `d[k] = v` updates in
  place when the key exists and appends otherwise.
* Python strings are Lean `String`s; `t in s` (substring test), `lower`,
  `startswith`, `endswith` and `strip`-truthiness are modelled
  character-exactly for ASCII text.
* The in-memory vector store is external to the repository; its
  `similarity_search` call is modelled as an oracle
  `String → Nat → Except Unit (List String)` returning the `tool_name`
  metadata of each hit in order, or an error standing for a raised
  exception.  All ranking theorems quantify over every oracle behaviour.
* The hash-embedding accumulator holds small integer counts; float
  addition of such counts is exact, so buckets are modelled as `Nat`.
-/

namespace LangToolkit

/-! ### Basic string utilities mirroring the Python primitives -/

/-- Digits of `n` in little-endian order as characters, with `fuel ≥ n`
(structural recursion so that the kernel can evaluate it). -/
def natDecimalAux : Nat → Nat → List Char
  | 0, _ => []
  | _ + 1, 0 => []
  | fuel + 1, n + 1 =>
    Char.ofNat (48 + (n + 1) % 10) :: natDecimalAux fuel ((n + 1) / 10)

/-- Decimal rendering of a natural number, as Python's `str(n)` / f-string
formatting produces it. -/
def natDecimal (n : Nat) : String :=
  if n = 0 then "0" else ((natDecimalAux n n).reverse).asString

/-- Python `s.lower()` (ASCII case folding, as `Char.toLower` performs). -/
def lowerStr (s : String) : String :=
  (s.data.map Char.toLower).asString

/-- `needle` occurs as a contiguous sublist of `hay`. -/
def subList (needle : List Char) : List Char → Bool
  | [] => needle.isEmpty
  | c :: cs => needle.isPrefixOf (c :: cs) || subList needle cs

/-- Python `needle in hay` on strings (substring containment). -/
def strContains (hay needle : String) : Bool :=
  subList needle.data hay.data

/-- Python `s.startswith(p)`. -/
def strStartsWith (s p : String) : Bool :=
  p.data.isPrefixOf s.data

/-- Python `s.endswith(p)`. -/
def strEndsWith (s p : String) : Bool :=
  p.data.isSuffixOf s.data

/-- Truthiness of Python `s.strip()`: some non-whitespace character exists. -/
def strIsNonBlank (s : String) : Bool :=
  s.data.any (fun c => !c.isWhitespace)

/-- Is `c` matched by the regex class `[a-z0-9]`? -/
def isTokenChar (c : Char) : Bool :=
  (97 ≤ c.toNat && c.toNat ≤ 122) || (48 ≤ c.toNat && c.toNat ≤ 57)

/-- Maximal runs of `[a-z0-9]` characters, i.e.
`re.findall(r"[a-z0-9]+", ·)` over a character list.  The fuel argument
(any bound `≥` the list length; each step consumes at least one character)
keeps the recursion structural so the kernel can evaluate it. -/
def tokenRuns : Nat → List Char → List String
  | 0, _ => []
  | _ + 1, [] => []
  | fuel + 1, c :: cs =>
    if isTokenChar c then
      (c :: cs.takeWhile isTokenChar).asString :: tokenRuns fuel (cs.dropWhile isTokenChar)
    else
      tokenRuns fuel cs

/-- `tokens = [t for t in re.findall(r"[a-z0-9]+", query_text.lower()) if t]`
(the final filter is vacuous: runs produced by `+` are never empty). -/
def pyTokens (s : String) : List String :=
  tokenRuns s.data.length (s.data.map Char.toLower)

/-- Python `enumerate` starting at `i`. -/
def pyEnumFrom (i : Nat) : List α → List (Nat × α)
  | [] => []
  | a :: as => (i, a) :: pyEnumFrom (i + 1) as

/-- Python `enumerate`. -/
def pyEnum (l : List α) : List (Nat × α) :=
  pyEnumFrom 0 l

/-! ### Python values, as far as `_normalize_query` can observe them -/

/-- The shapes of Python values relevant to `_normalize_query`: strings,
integers, lists, dicts, and objects that may expose a `content` attribute
(with `rep` standing for the object's `str(...)` rendering). -/
inductive PyVal where
  | str (s : String)
  | int (n : Int)
  | list (xs : List PyVal)
  | dict (m : List (String × PyVal))
  | obj (content : Option PyVal) (rep : String)

/-- Decimal rendering of a Python integer. -/
def intDecimal (n : Int) : String :=
  if n < 0 then "-" ++ natDecimal n.natAbs else natDecimal n.natAbs

mutual

/-- Python `repr` of a value (modelled; exact for strings and integers). -/
def pyRepr : PyVal → String
  | .str s => "\x27" ++ s ++ "\x27"
  | .int n => intDecimal n
  | .list xs => "[" ++ pyReprList xs ++ "]"
  | .dict m => "\x7b" ++ pyReprDict m ++ "\x7d"
  | .obj _ rep => rep

/-- Comma-separated reprs of list elements. -/
def pyReprList : List PyVal → String
  | [] => ""
  | [x] => pyRepr x
  | x :: y :: xs => pyRepr x ++ ", " ++ pyReprList (y :: xs)

/-- Comma-separated `key: value` reprs of dict items. -/
def pyReprDict : List (String × PyVal) → String
  | [] => ""
  | [(k, v)] => "\x27" ++ k ++ "\x27: " ++ pyRepr v
  | (k, v) :: p :: m => "\x27" ++ k ++ "\x27: " ++ pyRepr v ++ ", " ++ pyReprDict (p :: m)

end

/-- Python `str(value)` (exact for strings and integers; containers render
through `pyRepr`, objects through their stored rendering). -/
def pyStr : PyVal → String
  | .str s => s
  | v => pyRepr v

/-- Python `d.get(k)` on the modelled dict. -/
def dictGet (m : List (String × PyVal)) (k : String) : Option PyVal :=
  m.lookup k

/-- `getattr(v, "content", None)`: only objects expose the attribute. -/
def contentAttr : PyVal → Option PyVal
  | .obj c _ => c
  | _ => none

/-! ### `UnifiedToolHub._normalize_query` -/

/-- The dict branch of `_normalize_query`: scan keys `query`, `text`,
`prompt`, `content` in order and return the first value that is a string
with non-blank `strip()`. -/
def firstTextVal (m : List (String × PyVal)) : Option String :=
  ["query", "text", "prompt", "content"].foldl
    (fun acc key =>
      match acc with
      | some s => some s
      | none =>
        match dictGet m key with
        | some (.str v) => if strIsNonBlank v then some v else none
        | _ => none)
    none

/-- The LangGraph-style branch: `messages` must hold a non-empty list whose
last element is a dict with a non-blank string `content`. -/
def messagesText (m : List (String × PyVal)) : Option String :=
  match dictGet m "messages" with
  | some (.list msgs) =>
    if msgs.isEmpty then none
    else
      match msgs.getLast? with
      | some (.dict lastm) =>
        match dictGet lastm "content" with
        | some (.str c) => if strIsNonBlank c then some c else none
        | _ => none
      | _ => none
  | _ => none

/-- `UnifiedToolHub._normalize_query`, following the source's control flow:
string passthrough, then dict keys, then `messages`, then a `content`
attribute, then `str(query)`. -/
def normalizeQuery (q : PyVal) : String :=
  match q with
  | .str s => s
  | _ =>
    let fromDict : Option String :=
      match q with
      | .dict m =>
        (match firstTextVal m with
         | some s => some s
         | none => messagesText m)
      | _ => none
    match fromDict with
    | some s => s
    | none =>
      match contentAttr q with
      | some (.str c) => if strIsNonBlank c then c else pyStr q
      | _ => pyStr q

/-! ### Data model: `LoadedTool` and the hub state -/

/-- A `BaseTool` handle: an identity plus its visible `name` attribute
(the only attribute the hub reads or writes). -/
structure Tool where
  id : Nat
  name : String
deriving DecidableEq

/-- `LoadedTool`: a tool plus minimal metadata needed for indexing and
attribution. -/
structure LoadedTool where
  name : String
  description : String
  tool : Tool
  source : String
  origin : String

/-- The `UnifiedToolHub` mutable state: the insertion-ordered dicts
`_name_to_tool` and `_tool_text`.  (The vector store itself is external;
its query behaviour enters `queryTools` as an oracle.) -/
structure Hub where
  name_to_tool : List (String × Tool)
  tool_text : List (String × String)

/-- A hub as `__init__` leaves it: both dicts empty. -/
def Hub.empty : Hub := ⟨[], []⟩

/-- Keys of a modelled dict, in insertion order. -/
def dictKeys (m : List (String × α)) : List String :=
  m.map Prod.fst

/-- Python `d[k] = v`: replace in place when the key exists, else append. -/
def dictInsert (m : List (String × α)) (k : String) (v : α) : List (String × α) :=
  if k ∈ dictKeys m then
    m.map (fun p => if p.1 = k then (k, v) else p)
  else
    m ++ [(k, v)]

/-! ### Name resolution (`add_loaded_tools`, lines 126–132) -/

/-- The candidate `f"{base}_{idx}"`. -/
def candName (base : String) (idx : Nat) : String :=
  base ++ "_" ++ natDecimal idx

/-- The collision loop `while tool_name in self._name_to_tool:`, with
explicit fuel (adequate fuel makes it equivalent to the unbounded loop,
see `firstFresh_not_mem`). -/
def firstFresh (keys : List String) (base : String) : Nat → Nat → String
  | idx, 0 => candName base idx
  | idx, fuel + 1 =>
    let c := candName base idx
    if c ∈ keys then firstFresh keys base (idx + 1) fuel else c

/-- Name resolution against the current key set: keep a fresh candidate
unchanged, otherwise append `_2`, `_3`, … to the original candidate until
the name is unused. -/
def resolveName (keys : List String) (name : String) : String :=
  if name ∈ keys then firstFresh keys base₀ 2 (keys.length + 1) else name
where base₀ := name

/-- The composed index text
`f"name: {tool_name}\nsource: {lt.source}\norigin: {lt.origin}\n{lt.description}"`. -/
def composeText (resolved : String) (lt : LoadedTool) : String :=
  "name: " ++ resolved ++ "\nsource: " ++ lt.source ++ "\norigin: " ++ lt.origin
    ++ "\n" ++ lt.description

/-- One iteration of the `add_loaded_tools` loop: resolve the name, bind it
onto the handle (the `setattr` succeeds on the modelled handle), store the
handle and the composed text. -/
def addOne (hub : Hub) (lt : LoadedTool) : Hub :=
  let resolved := resolveName (dictKeys hub.name_to_tool) lt.name
  { name_to_tool := dictInsert hub.name_to_tool resolved { lt.tool with name := resolved }
    tool_text := dictInsert hub.tool_text resolved (composeText resolved lt) }

/-- `UnifiedToolHub.add_loaded_tools`. -/
def addLoadedTools (hub : Hub) (items : List LoadedTool) : Hub :=
  items.foldl addOne hub

/-- `UnifiedToolHub.all_tools`: the registered handles in insertion order. -/
def allTools (hub : Hub) : List Tool :=
  hub.name_to_tool.map Prod.snd

/-! ### `_HashEmbedding`: the deterministic last-resort embedding -/

/-- `vec[j] += 1.0` (out-of-range indices are unreachable because the
index is reduced `% dim`). -/
def bump : List Nat → Nat → List Nat
  | [], _ => []
  | x :: xs, 0 => (x + 1) :: xs
  | x :: xs, j + 1 => x :: bump xs j

/-- `_HashEmbedding._embed`: a `dim`-sized accumulator where each character
at position `i` adds one to bucket `(i + ord(ch)) % dim`. -/
def hashEmbed (dim : Nat) (text : String) : List Nat :=
  (pyEnum text.data).foldl (fun vec p => bump vec ((p.1 + p.2.toNat) % dim)) (List.replicate dim 0)

/-- `_HashEmbedding.embed_documents`. -/
def hashEmbedDocuments (dim : Nat) (texts : List String) : List (List Nat) :=
  texts.map (hashEmbed dim)

/-- `_HashEmbedding.embed_query`. -/
def hashEmbedQuery (dim : Nat) (text : String) : List Nat :=
  hashEmbed dim text

/-! ### `UnifiedToolHub.query_tools` -/

/-- The external `InMemoryVectorStore.similarity_search` behaviour: given
the query text and requested pool size, either a list of hits (each
represented by its `tool_name` metadata, in returned order; a missing
`tool_name` key is represented by `""`) or a raised exception. -/
abbrev SearchOracle := String → Nat → Except Unit (List String)

/-- The `vec_rank` dict: `vec_rank.setdefault(tname, idx)` for each truthy
`tname` of the enumerated results. -/
def vecRankOf (results : List String) : List (String × Nat) :=
  (pyEnum results).foldl
    (fun acc p =>
      if p.2 ≠ "" ∧ acc.lookup p.2 = none then acc ++ [(p.2, p.1)] else acc)
    []

/-- `boost_for`: the lexical score of one tool name under the given token
list, including the two heuristic boosts. -/
def boostFor (tool_text : List (String × String)) (tokens : List String)
    (tool_name : String) : Nat :=
  let name_l := lowerStr tool_name
  let text_l := lowerStr ((tool_text.lookup tool_name).getD "")
  let name_hits := (tokens.filter (fun t => strContains name_l t)).length
  let text_hits := (tokens.filter (fun t => strContains text_l t)).length
  let score := 2 * name_hits + text_hits
  let score :=
    if (tokens.contains "search" || tokens.contains "who" || tokens.contains "what")
        && (strContains tool_name "__search" || strEndsWith tool_name "_search") then
      score + 3
    else score
  if (["btc", "bitcoin", "eth", "exchange", "exchanges"].any fun term => tokens.contains term)
      && (strStartsWith tool_name "ccxt_" || strContains text_l "crypto") then
    score + 4
  else score

/-- A `scored` entry `(b, -vr, name)`. -/
abbrev ScoredEntry := Nat × Int × String

/-- The lexicographic key Python compares when sorting `scored` tuples. -/
def entryKey (e : ScoredEntry) : Lex (Nat × Lex (Int × String)) :=
  toLex (e.1, toLex (e.2.1, e.2.2))

/-- `a` sorts no later than `b` under `scored.sort(reverse=True)`:
descending lexicographic tuple order. -/
def entryBefore (a b : ScoredEntry) : Prop :=
  entryKey b ≤ entryKey a

instance : DecidableRel entryBefore := fun a b =>
  inferInstanceAs (Decidable (entryKey b ≤ entryKey a))

instance : IsTotal ScoredEntry entryBefore :=
  ⟨fun a b => by unfold entryBefore; exact le_total (entryKey b) (entryKey a)⟩

instance : IsTrans ScoredEntry entryBefore :=
  ⟨fun _ _ _ h₁ h₂ => le_trans h₂ h₁⟩

/-- Lines 160–169 of `query_tools`: the candidate pool the ranker sees —
the result of `similarity_search(query_text, k=candidate_pool_size)` with
`candidate_pool_size = min(max(20, k*3), len(name_to_tool))`, or the empty
pool when the call raises. -/
def poolOf (hub : Hub) (search : SearchOracle) (query : PyVal) (k : Nat) : List String :=
  match search (normalizeQuery query) (min (max 20 (k * 3)) hub.name_to_tool.length) with
  | .ok docs => docs
  | .error _ => []

/-- `UnifiedToolHub.query_tools`, parameterized by the vector-store
oracle.  `scored.sort(reverse=True)` (a stable descending sort) is
realized by `List.insertionSort` under `entryBefore`, which is likewise
stable; the final dict lookup cannot miss because every ranked name is a
key, so the `getD` default is unreachable. -/
def queryTools (hub : Hub) (search : SearchOracle) (query : PyVal) (k : Nat) :
    List Tool :=
  if hub.name_to_tool.isEmpty then []
  else
    let query_text := normalizeQuery query
    let vec_results := poolOf hub search query k
    let vec_rank := vecRankOf vec_results
    let tokens := pyTokens query_text
    let all_names := dictKeys hub.name_to_tool
    let default_vec_rank := hub.name_to_tool.length + 1000
    let scored : List ScoredEntry :=
      all_names.map fun name =>
        (boostFor hub.tool_text tokens name,
         -(((vec_rank.lookup name).getD default_vec_rank : Nat) : Int),
         name)
    let sorted := List.insertionSort entryBefore scored
    let top_names := (sorted.take k).map fun e => e.2.2
    top_names.map fun nm => (hub.name_to_tool.lookup nm).getD ⟨0, ""⟩

/-! ### Claim-side definitions, transcribed from the specification's words
(used only as the comparison side of refinement theorems) -/

/-- Spec 4.4(b): the value under `key` when it is a string with non-blank
content ("non-empty" in the spec's sense of a truthy `strip()`). -/
def specKeyString (m : List (String × PyVal)) (key : String) : Option String :=
  match dictGet m key with
  | some (.str v) => if strIsNonBlank v then some v else none
  | _ => none

/-- Spec 4.4(c): a `messages` key holding a non-empty sequence whose last
element is a mapping with a non-empty string `content`. -/
def specMsgText (m : List (String × PyVal)) : Option String :=
  match dictGet m "messages" with
  | some (.list msgs) =>
    match msgs.getLast? with
    | some (.dict lastm) =>
      match dictGet lastm "content" with
      | some (.str c) => if strIsNonBlank c then some c else none
      | _ => none
    | _ => none
  | _ => none

/-- Query normalization exactly as spec 4.4 words it: (a) strings pass
through; (b) mappings try `query`, `text`, `prompt`, `content` in priority
order; (c) then the `messages` shape; (d) an object with a non-empty
string `content` attribute; (e) otherwise the generic string
representation of the whole input. -/
def specNormalize (q : PyVal) : String :=
  match q with
  | .str s => s
  | .dict m =>
    match specKeyString m "query" with
    | some s => s
    | none =>
      match specKeyString m "text" with
      | some s => s
      | none =>
        match specKeyString m "prompt" with
        | some s => s
        | none =>
          match specKeyString m "content" with
          | some s => s
          | none =>
            match specMsgText m with
            | some s => s
            | none => pyStr (.dict m)
  | .obj c rep =>
    match c with
    | some (.str s) => if strIsNonBlank s then s else pyStr (.obj c rep)
    | _ => pyStr (.obj c rep)
  | other => pyStr other

/-- The lexical score as claim C2 words it: twice the count of query tokens
appearing in the lowercased tool name plus the count appearing in the
lowercased composed index text, then the `search`/`who`/`what` +3 boost and
the crypto +4 boost. -/
def specLexScore (tokens : List String) (tool_name : String) (index_text : String) : Nat :=
  let base :=
    2 * (tokens.filter fun t => strContains (lowerStr tool_name) t).length
      + (tokens.filter fun t => strContains (lowerStr index_text) t).length
  let base :=
    if ("search" ∈ tokens ∨ "who" ∈ tokens ∨ "what" ∈ tokens)
        ∧ (strContains tool_name "__search" = true ∨ strEndsWith tool_name "_search" = true) then
      base + 3
    else base
  if (∃ term ∈ (["btc", "bitcoin", "eth", "exchange", "exchanges"] : List String), term ∈ tokens)
      ∧ (strStartsWith tool_name "ccxt_" = true
          ∨ strContains (lowerStr index_text) "crypto" = true) then
    base + 4
  else base

/-- First (lowest) zero-based position of `name` among the pooled results,
counting from `i`. -/
def firstIndexFrom (i : Nat) (name : String) : List String → Option Nat
  | [] => none
  | r :: rs => if r = name then some i else firstIndexFrom (i + 1) name rs

/-- Claim C3's vector-rank position: the first position in the pool, or the
sentinel `total + 1000` for tools absent from the pool. -/
def specVecPos (pool : List String) (total : Nat) (name : String) : Nat :=
  (firstIndexFrom 0 name pool).getD (total + 1000)

/-- Claim C3's ordering: primarily descending post-boost score, ties by
ascending vector-rank position, remaining ties by the tool name as a
deterministic tertiary key (descending lexicographic, as the code's
`reverse=True` makes it). -/
def claimBefore (score : String → Nat) (pos : String → Nat) (n₁ n₂ : String) : Prop :=
  score n₂ < score n₁
    ∨ (score n₁ = score n₂
        ∧ (pos n₁ < pos n₂ ∨ (pos n₁ = pos n₂ ∧ n₂ ≤ n₁)))

/-- The two structural invariants of the hub dicts. -/
def HubInv (hub : Hub) : Prop :=
  (dictKeys hub.name_to_tool).Nodup
    ∧ dictKeys hub.name_to_tool = dictKeys hub.tool_text

/-- The loop body of the dict scan in `_normalize_query`, named so proofs
can case on it (definitionally the lambda inside `firstTextVal`). -/
def scanStep (m : List (String × PyVal)) (acc : Option String) (key : String) : Option String :=
  match acc with
  | some s => some s
  | none => specKeyString m key

/-- Claim-side characterization: bucket `j` counts the characters whose
position-weighted code point hashes to `j`. -/
def specBucketCount (dim : Nat) (text : String) (j : Nat) : Nat :=
  ((pyEnum text.data).filter fun p => (p.1 + p.2.toNat) % dim == j).length

/-- The spec's keyword-boost scenario hub: `sdk__search` (description
"search tool") and `ccxt_get_price` (description "crypto exchanges"),
registered in that order. -/
def hub2 : Hub :=
  addLoadedTools Hub.empty
    [⟨"sdk__search", "search tool", ⟨1, "sdk__search"⟩, "sdk", "a"⟩,
     ⟨"ccxt_get_price", "crypto exchanges", ⟨2, "ccxt_get_price"⟩, "mcp", "b"⟩]

/-! ### Decimal rendering is injective on positive numbers -/

/-- Value of a little-endian digit-character list. -/
def charsVal : List Char → Nat
  | [] => 0
  | c :: cs => (c.toNat - 48) + 10 * charsVal cs

theorem digitChar_toNat : ∀ r : Nat, r < 10 → (Char.ofNat (48 + r)).toNat = 48 + r := by
  decide

theorem charsVal_natDecimalAux : ∀ fuel n, n ≤ fuel → charsVal (natDecimalAux fuel n) = n := by
  intro fuel
  induction fuel with
  | zero =>
    intro n h
    have : n = 0 := Nat.le_zero.mp h
    subst this
    rfl
  | succ fuel ih =>
    intro n h
    match n with
    | 0 => rfl
    | n + 1 =>
      have hlt : (n + 1) % 10 < 10 := Nat.mod_lt _ (by norm_num)
      have hdiv : (n + 1) / 10 ≤ fuel := by
        have := Nat.div_lt_self (Nat.succ_pos n) (by norm_num : 1 < 10)
        omega
      simp only [natDecimalAux, charsVal]
      rw [digitChar_toNat _ hlt, ih _ hdiv]
      omega

theorem natDecimal_inj_pos {n m : Nat} (hn : 0 < n) (hm : 0 < m)
    (h : natDecimal n = natDecimal m) : n = m := by
  unfold natDecimal at h
  rw [if_neg (Nat.pos_iff_ne_zero.mp hn), if_neg (Nat.pos_iff_ne_zero.mp hm)] at h
  have hdata : (natDecimalAux n n).reverse = (natDecimalAux m m).reverse :=
    congrArg String.data h
  have haux : natDecimalAux n n = natDecimalAux m m := List.reverse_inj.mp hdata
  calc n = charsVal (natDecimalAux n n) := (charsVal_natDecimalAux n n le_rfl).symm
    _ = charsVal (natDecimalAux m m) := by rw [haux]
    _ = m := charsVal_natDecimalAux m m le_rfl

theorem candName_inj {base : String} {n m : Nat} (hn : 0 < n) (hm : 0 < m)
    (h : candName base n = candName base m) : n = m := by
  unfold candName at h
  have hd := congrArg String.data h
  rw [String.data_append, String.data_append, String.data_append, String.data_append] at hd
  have hd2 : (base.data ++ "_".data) ++ (natDecimal n).data
      = (base.data ++ "_".data) ++ (natDecimal m).data := by
    simpa [List.append_assoc] using hd
  have hdec : (natDecimal n).data = (natDecimal m).data := List.append_cancel_left hd2
  exact natDecimal_inj_pos hn hm (String.ext hdec)

/-! ### Freshness of resolved names -/

theorem firstFresh_not_mem {keys : List String} {base : String} :
    ∀ fuel idx, (∃ j, j < fuel ∧ candName base (idx + j) ∉ keys) →
      firstFresh keys base idx fuel ∉ keys := by
  intro fuel
  induction fuel with
  | zero =>
    intro idx h
    obtain ⟨j, hj, _⟩ := h
    omega
  | succ fuel ih =>
    intro idx h
    by_cases hmem : candName base idx ∈ keys
    · simp only [firstFresh, if_pos hmem]
      apply ih
      obtain ⟨j, hj, hfree⟩ := h
      match j with
      | 0 => exact absurd hmem (by simpa using hfree)
      | j + 1 => exact ⟨j, by omega, by rw [show idx + 1 + j = idx + (j + 1) by omega]; exact hfree⟩
    · simpa only [firstFresh, if_neg hmem] using hmem

/-- Among `keys.length + 1` pairwise distinct candidates some candidate is
absent from `keys`. -/
theorem exists_fresh_candidate (keys : List String) (base : String) :
    ∃ j, j < keys.length + 1 ∧ candName base (2 + j) ∉ keys := by
  by_contra hall
  push_neg at hall
  set C : List String := (List.range (keys.length + 1)).map (fun j => candName base (2 + j))
    with hC
  have hnodup : C.Nodup := by
    refine (List.nodup_range _).map_on ?_
    intro x hx y hy hxy
    have := candName_inj (by omega) (by omega) hxy
    omega
  have hsub : C ⊆ keys := by
    intro x hx
    rw [hC, List.mem_map] at hx
    obtain ⟨j, hj, rfl⟩ := hx
    exact hall j (List.mem_range.mp hj)
  have hlen : C.length ≤ keys.length := (hnodup.subperm hsub).length_le
  rw [hC, List.length_map, List.length_range] at hlen
  omega

theorem resolveName_not_mem (keys : List String) (name : String) :
    resolveName keys name ∉ keys := by
  unfold resolveName
  by_cases hmem : name ∈ keys
  · rw [if_pos hmem]
    exact firstFresh_not_mem _ _ (exists_fresh_candidate keys name)
  · rwa [if_neg hmem]

/-! ### Hub state lemmas -/

theorem dictInsert_fresh {m : List (String × α)} {k : String} (h : k ∉ dictKeys m) (v : α) :
    dictInsert m k v = m ++ [(k, v)] := by
  unfold dictInsert
  rw [if_neg h]

theorem dictKeys_append (m₁ m₂ : List (String × α)) :
    dictKeys (m₁ ++ m₂) = dictKeys m₁ ++ dictKeys m₂ :=
  List.map_append _ _ _

theorem hubInv_empty : HubInv Hub.empty :=
  ⟨List.nodup_nil, rfl⟩

theorem addOne_state (hub : Hub) (lt : LoadedTool)
    (hkeys : dictKeys hub.name_to_tool = dictKeys hub.tool_text) :
    (addOne hub lt).name_to_tool
        = hub.name_to_tool ++ [(resolveName (dictKeys hub.name_to_tool) lt.name,
            { lt.tool with name := resolveName (dictKeys hub.name_to_tool) lt.name })]
      ∧ (addOne hub lt).tool_text
        = hub.tool_text ++ [(resolveName (dictKeys hub.name_to_tool) lt.name,
            composeText (resolveName (dictKeys hub.name_to_tool) lt.name) lt)] := by
  constructor
  · exact dictInsert_fresh (resolveName_not_mem _ _) _
  · apply dictInsert_fresh
    rw [← hkeys]
    exact resolveName_not_mem _ _

theorem addOne_inv {hub : Hub} (h : HubInv hub) (lt : LoadedTool) : HubInv (addOne hub lt) := by
  obtain ⟨hnd, hkeys⟩ := h
  obtain ⟨h1, h2⟩ := addOne_state hub lt hkeys
  constructor
  · rw [h1, dictKeys_append]
    rw [List.nodup_append]
    refine ⟨hnd, List.nodup_singleton _, ?_⟩
    intro a ha hb
    have : a = resolveName (dictKeys hub.name_to_tool) lt.name := by simpa [dictKeys] using hb
    subst this
    exact resolveName_not_mem _ _ ha
  · rw [h1, h2, dictKeys_append, dictKeys_append, hkeys]
    rfl

theorem addLoadedTools_inv {hub : Hub} (h : HubInv hub) (items : List LoadedTool) :
    HubInv (addLoadedTools hub items) := by
  induction items generalizing hub with
  | nil => exact h
  | cons lt rest ih => exact ih (addOne_inv h lt)

/-- C1.  After every sequence of `add_loaded_tools` calls starting from a
fresh hub, the keys of `name_to_tool` are pairwise distinct and coincide
with the keys of `tool_text`, regardless of the batches' contents. -/
theorem uniqueness_invariant (batches : List (List LoadedTool)) :
    (dictKeys (batches.foldl addLoadedTools Hub.empty).name_to_tool).Nodup
      ∧ dictKeys (batches.foldl addLoadedTools Hub.empty).name_to_tool
        = dictKeys (batches.foldl addLoadedTools Hub.empty).tool_text := by
  have main : ∀ (bs : List (List LoadedTool)) (hub : Hub), HubInv hub →
      HubInv (bs.foldl addLoadedTools hub) := by
    intro bs
    induction bs with
    | nil => intro hub h; exact h
    | cons b rest ih => intro hub h; exact ih _ (addLoadedTools_inv h b)
  exact main batches Hub.empty hubInv_empty

/-! ### Least-index characterization of the collision loop -/

theorem firstFresh_least {keys : List String} {base : String} :
    ∀ fuel idx, (∃ j, j < fuel ∧ candName base (idx + j) ∉ keys) →
      ∃ j, j < fuel ∧ firstFresh keys base idx fuel = candName base (idx + j)
        ∧ candName base (idx + j) ∉ keys
        ∧ ∀ j', j' < j → candName base (idx + j') ∈ keys := by
  intro fuel
  induction fuel with
  | zero =>
    rintro idx ⟨j, hj, -⟩
    omega
  | succ fuel ih =>
    intro idx h
    by_cases hmem : candName base idx ∈ keys
    · obtain ⟨j, hj, hfree⟩ := h
      match j with
      | 0 => exact absurd hmem (by simpa using hfree)
      | j + 1 =>
        obtain ⟨j₀, hj₀, heq, hfree₀, hleast⟩ :=
          ih (idx + 1) ⟨j, by omega, by rw [show idx + 1 + j = idx + (j + 1) by omega]; exact hfree⟩
        refine ⟨j₀ + 1, by omega, ?_, ?_, ?_⟩
        · simp only [firstFresh, if_pos hmem]
          rw [heq]
          congr 1
          omega
        · rw [show idx + (j₀ + 1) = idx + 1 + j₀ by omega]
          exact hfree₀
        · intro j' hj'
          match j' with
          | 0 => simpa using hmem
          | j' + 1 =>
            rw [show idx + (j' + 1) = idx + 1 + j' by omega]
            exact hleast j' (by omega)
    · exact ⟨0, by omega, by simp [firstFresh, if_neg hmem], by simpa using hmem, by omega⟩

/-- C4.  Name resolution: a fresh candidate is stored unchanged; a
colliding candidate gets suffix `_n` for the first unused `n ≥ 2`; and
adding three tools named `dup` to a fresh hub yields exactly
`dup`, `dup_2`, `dup_3`. -/
theorem name_resolution_policy :
    (∀ keys name, name ∉ keys → resolveName keys name = name)
      ∧ (∀ keys name, name ∈ keys →
          ∃ n, 2 ≤ n ∧ resolveName keys name = candName name n
            ∧ candName name n ∉ keys
            ∧ ∀ m, 2 ≤ m → m < n → candName name m ∈ keys)
      ∧ dictKeys (addLoadedTools Hub.empty
          [⟨"dup", "", ⟨1, "dup"⟩, "sdk", "a"⟩, ⟨"dup", "", ⟨2, "dup"⟩, "sdk", "b"⟩,
           ⟨"dup", "", ⟨3, "dup"⟩, "sdk", "c"⟩]).name_to_tool = ["dup", "dup_2", "dup_3"] := by
  refine ⟨?_, ?_, by decide⟩
  · intro keys name h
    unfold resolveName
    rw [if_neg h]
  · intro keys name h
    unfold resolveName
    rw [if_pos h]
    obtain ⟨j, hj, heq, hfree, hleast⟩ :=
      firstFresh_least (keys.length + 1) 2 (exists_fresh_candidate keys name)
    refine ⟨2 + j, by omega, heq, hfree, ?_⟩
    intro m h2 hm
    have := hleast (m - 2) (by omega)
    rwa [show 2 + (m - 2) = m by omega] at this

/-- Witness for C4's two hypothetical clauses at concrete inputs. -/
theorem name_resolution_policy_w :
    resolveName ["dup"] "x" = "x"
      ∧ ∃ n, 2 ≤ n ∧ resolveName ["dup"] "dup" = candName "dup" n
          ∧ candName "dup" n ∉ ["dup"]
          ∧ ∀ m, 2 ≤ m → m < n → candName "dup" m ∈ ["dup"] :=
  ⟨name_resolution_policy.1 ["dup"] "x" (by decide),
   name_resolution_policy.2.1 ["dup"] "dup" (by decide)⟩

/-- C7.  Every batch item contributes exactly one new entry: the resolved
names extend the key list one-for-one and in order, the key list stays
duplicate-free (so each tool appears exactly once), and `all_tools`
extends by exactly the batch's handles, each carrying its resolved name. -/
theorem registration_round_trip (hub : Hub) (items : List LoadedTool) (h : HubInv hub) :
    ∃ names : List String,
      names.length = items.length
      ∧ dictKeys (addLoadedTools hub items).name_to_tool = dictKeys hub.name_to_tool ++ names
      ∧ (dictKeys (addLoadedTools hub items).name_to_tool).Nodup
      ∧ allTools (addLoadedTools hub items)
        = allTools hub
          ++ List.zipWith (fun nm (lt : LoadedTool) => { lt.tool with name := nm }) names items := by
  induction items generalizing hub with
  | nil =>
    exact ⟨[], rfl, by simp [addLoadedTools], by simpa [addLoadedTools] using h.1,
      by simp [addLoadedTools]⟩
  | cons lt rest ih =>
    obtain ⟨h1, -⟩ := addOne_state hub lt h.2
    obtain ⟨names, hlen, hkeys, hnodup, htools⟩ := ih (addOne hub lt) (addOne_inv h lt)
    have hstep : addLoadedTools hub (lt :: rest) = addLoadedTools (addOne hub lt) rest := rfl
    refine ⟨resolveName (dictKeys hub.name_to_tool) lt.name :: names, by simp [hlen], ?_, ?_, ?_⟩
    · rw [hstep, hkeys, h1, dictKeys_append]
      simp [dictKeys]
    · rwa [hstep]
    · rw [hstep, htools]
      simp only [allTools, h1, List.map_append, List.zipWith_cons_cons]
      simp

/-- Witness for C7 at a concrete hub and batch. -/
theorem registration_round_trip_w :
    ∃ names : List String,
      names.length = ([⟨"t", "d", ⟨7, "t"⟩, "sdk", "o"⟩] : List LoadedTool).length
      ∧ dictKeys (addLoadedTools Hub.empty [⟨"t", "d", ⟨7, "t"⟩, "sdk", "o"⟩]).name_to_tool
        = dictKeys Hub.empty.name_to_tool ++ names
      ∧ (dictKeys (addLoadedTools Hub.empty [⟨"t", "d", ⟨7, "t"⟩, "sdk", "o"⟩]).name_to_tool).Nodup
      ∧ allTools (addLoadedTools Hub.empty [⟨"t", "d", ⟨7, "t"⟩, "sdk", "o"⟩])
        = allTools Hub.empty
          ++ List.zipWith (fun nm (lt : LoadedTool) => { lt.tool with name := nm }) names
              [⟨"t", "d", ⟨7, "t"⟩, "sdk", "o"⟩] :=
  registration_round_trip Hub.empty [⟨"t", "d", ⟨7, "t"⟩, "sdk", "o"⟩] ⟨List.nodup_nil, rfl⟩

/-! ### C5: query normalization matches the spec's cascade -/

theorem firstTextVal_eq_scan (m : List (String × PyVal)) :
    firstTextVal m = ["query", "text", "prompt", "content"].foldl (scanStep m) none := rfl

theorem foldl_scanStep_some (m : List (String × PyVal)) (s : String) :
    ∀ l : List String, l.foldl (scanStep m) (some s) = some s := by
  intro l
  induction l with
  | nil => rfl
  | cons key rest ih => simpa [scanStep] using ih

theorem messagesText_eq_spec (m : List (String × PyVal)) :
    messagesText m = specMsgText m := by
  unfold messagesText specMsgText
  cases h : dictGet m "messages" with
  | none => rfl
  | some v =>
    cases v with
    | list msgs => cases msgs <;> simp
    | str s => rfl
    | int n => rfl
    | dict mm => rfl
    | obj c rep => rfl

theorem normalizeQuery_eq_spec (q : PyVal) : normalizeQuery q = specNormalize q := by
  match q with
  | .str s => rfl
  | .int n => rfl
  | .list xs => rfl
  | .obj c rep =>
    cases c with
    | none => rfl
    | some v => cases v <;> rfl
  | .dict m =>
    show (match (match firstTextVal m with
                 | some s => some s
                 | none => messagesText m) with
          | some s => s
          | none => pyStr (.dict m))
        = (match specKeyString m "query" with
           | some s => s
           | none =>
             match specKeyString m "text" with
             | some s => s
             | none =>
               match specKeyString m "prompt" with
               | some s => s
               | none =>
                 match specKeyString m "content" with
                 | some s => s
                 | none =>
                   match specMsgText m with
                   | some s => s
                   | none => pyStr (.dict m))
    rw [firstTextVal_eq_scan, messagesText_eq_spec]
    simp only [List.foldl_cons, List.foldl_nil]
    cases h1 : specKeyString m "query" with
    | some s =>
      have h1s : scanStep m none "query" = some s := h1
      simp only [h1s, h1, scanStep]
    | none =>
      have h1s : scanStep m none "query" = none := h1
      simp only [h1s, h1, scanStep]
      cases h2 : specKeyString m "text" with
      | some s =>
        simp only [h2, scanStep]
      | none =>
        simp only [h2, scanStep]
        cases h3 : specKeyString m "prompt" with
        | some s =>
          simp only [h3, scanStep]
        | none =>
          simp only [h3, scanStep]
          cases h4 : specKeyString m "content" with
          | some s =>
            simp only [h4, scanStep]
          | none =>
            simp only [h4, scanStep]

/-- C5.  `_normalize_query` realizes the spec's cascade exactly — string
passthrough, the four priority keys, the `messages` shape, the `content`
attribute, then the generic string rendering (so it never raises) — and
the four normalization scenarios evaluate as stated. -/
theorem query_normalization :
    (∀ q, normalizeQuery q = specNormalize q)
      ∧ normalizeQuery (.str "hello") = "hello"
      ∧ normalizeQuery (.dict [("query", .str "q")]) = "q"
      ∧ normalizeQuery (.dict [("messages", .list [.dict [("content", .str "q5")]])]) = "q5"
      ∧ normalizeQuery (.int 123) = "123" := by
  refine ⟨normalizeQuery_eq_spec, rfl, by decide, by decide, ?_⟩
  have h : normalizeQuery (.int 123) = pyRepr (.int 123) := rfl
  rw [h]
  unfold pyRepr
  decide

/-! ### C9: the deterministic hash embedding -/

theorem bump_getElem? (v : List Nat) (r : Nat) :
    ∀ j, (bump v r)[j]? = if j = r then (v[j]?).map (· + 1) else v[j]? := by
  induction v generalizing r with
  | nil => intro j; cases r <;> simp [bump]
  | cons x xs ih =>
    intro j
    cases r with
    | zero =>
      cases j with
      | zero => simp [bump]
      | succ j => simp [bump, Nat.succ_ne_zero]
    | succ r =>
      cases j with
      | zero => simp [bump, (Nat.succ_ne_zero r).symm]
      | succ j => simpa [bump, Nat.succ_inj] using ih r j

theorem bump_length (v : List Nat) (r : Nat) : (bump v r).length = v.length := by
  induction v generalizing r with
  | nil => rfl
  | cons x xs ih => cases r <;> simp [bump, ih]

theorem hashFold_getElem? (dim : Nat) (j : Nat) :
    ∀ (ps : List (Nat × Char)) (v : List Nat),
      (ps.foldl (fun vec p => bump vec ((p.1 + p.2.toNat) % dim)) v)[j]?
        = (v[j]?).map (· + (ps.filter fun p => (p.1 + p.2.toNat) % dim == j).length) := by
  intro ps
  induction ps with
  | nil => intro v; cases h : v[j]? <;> simp [h]
  | cons p ps ih =>
    intro v
    rw [List.foldl_cons, ih, bump_getElem?]
    by_cases hj : (p.1 + p.2.toNat) % dim = j
    · rw [if_pos hj.symm]
      rw [List.filter_cons_of_pos (by simpa using hj)]
      cases h : v[j]? <;> simp [h, Nat.add_assoc, Nat.add_comm 1]
    · rw [if_neg (fun hh => hj hh.symm)]
      rw [List.filter_cons_of_neg (by simpa using hj)]

theorem hashFold_length (dim : Nat) :
    ∀ (ps : List (Nat × Char)) (v : List Nat),
      (ps.foldl (fun vec p => bump vec ((p.1 + p.2.toNat) % dim)) v).length = v.length := by
  intro ps
  induction ps with
  | nil => intro v; rfl
  | cons p ps ih => intro v; rw [List.foldl_cons, ih, bump_length]

/-- C9.  The last-resort `_HashEmbedding` is dependency-free arithmetic:
every text embeds to a vector of the fixed dimension 128 whose bucket `j`
holds exactly the number of characters at position `i` with
`(i + code_point) % 128 = j`; `embed_documents` is the per-text map of the
same `_embed`, `embed_query` is `_embed` itself, and equal texts always
receive equal vectors (determinism). -/
theorem hash_embedding_fallback :
    (∀ text, (hashEmbed 128 text).length = 128)
      ∧ (∀ text j, j < 128 → (hashEmbed 128 text)[j]? = some (specBucketCount 128 text j))
      ∧ (∀ texts, hashEmbedDocuments 128 texts = texts.map fun t => hashEmbedQuery 128 t)
      ∧ (∀ t₁ t₂, t₁ = t₂ → hashEmbedQuery 128 t₁ = hashEmbedQuery 128 t₂) := by
  refine ⟨?_, ?_, fun texts => rfl, fun t₁ t₂ h => by rw [h]⟩
  · intro text
    unfold hashEmbed
    rw [hashFold_length, List.length_replicate]
  · intro text j hj
    unfold hashEmbed
    rw [hashFold_getElem?, List.getElem?_replicate, if_pos hj]
    simp [specBucketCount]

/-- Witness for C9's hypothetical clauses at concrete inputs. -/
theorem hash_embedding_fallback_w :
    (hashEmbed 128 "ab")[0]? = some (specBucketCount 128 "ab" 0)
      ∧ hashEmbedQuery 128 "x" = hashEmbedQuery 128 "x" :=
  ⟨hash_embedding_fallback.2.1 "ab" 0 (by norm_num),
   hash_embedding_fallback.2.2.2 "x" "x" rfl⟩

/-! ### C8, C10, C6: basic ranker guarantees -/

/-- C8.  On a hub with zero registered tools, `query_tools` returns `[]`
for every query and every `k`, for every behaviour of the embedding index
(the `∀ search` quantifier certifies the index is never consulted). -/
theorem empty_hub_query (hub : Hub) (search : SearchOracle) (q : PyVal) (k : Nat)
    (h : hub.name_to_tool = []) : queryTools hub search q k = [] := by
  unfold queryTools
  rw [if_pos (by simp [h])]

/-- Witness for C8 at the freshly constructed hub. -/
theorem empty_hub_query_w :
    queryTools Hub.empty (fun _ _ => Except.ok ["ghost"]) (.str "anything") 5 = [] :=
  empty_hub_query Hub.empty (fun _ _ => Except.ok ["ghost"]) (.str "anything") 5 rfl

theorem queryTools_length (hub : Hub) (search : SearchOracle) (q : PyVal) (k : Nat)
    (hne : hub.name_to_tool ≠ []) :
    (queryTools hub search q k).length = min k hub.name_to_tool.length := by
  unfold queryTools
  rw [if_neg (by simpa [List.isEmpty_iff] using hne)]
  simp only [List.length_map, List.length_take,
    (List.perm_insertionSort entryBefore _).length_eq, dictKeys]

/-- C10.  With `n ≥ 1` registered tools and `k ≥ 1`, `query_tools` returns
exactly `min k n` handles, for every query and every index behaviour
(including failing vector search and zero lexical overlap). -/
theorem ranked_list_length (hub : Hub) (search : SearchOracle) (q : PyVal) (k : Nat)
    (hne : hub.name_to_tool ≠ []) (_hk : 1 ≤ k) :
    (queryTools hub search q k).length = min k hub.name_to_tool.length :=
  queryTools_length hub search q k hne

/-- Witness for C10: one registered tool, failing index, no token overlap,
`k = 5` still yields `min 5 1 = 1` result. -/
theorem ranked_list_length_w :
    (queryTools ⟨[("alpha", ⟨1, "alpha"⟩)], [("alpha", "text")]⟩
        (fun _ _ => Except.error ()) (.str "zzz") 5).length
      = min 5 (⟨[("alpha", ⟨1, "alpha"⟩)], [("alpha", "text")]⟩ : Hub).name_to_tool.length :=
  ranked_list_length ⟨[("alpha", ⟨1, "alpha"⟩)], [("alpha", "text")]⟩
    (fun _ _ => Except.error ()) (.str "zzz") 5 (by decide) (by norm_num)

/-- C6.  A raising similarity search is swallowed: `query_tools` behaves
exactly as with an empty candidate pool (lexical-only ranking over the
full registered set), and on a non-empty hub with `k ≥ 1` it still
returns a non-empty ranked list.  (A mismatched-dimension `embed_query`
is one way the external store raises; the oracle hypothesis covers every
such failure.) -/
theorem vector_failure_resilience (hub : Hub) (search : SearchOracle) (q : PyVal) (k : Nat)
    (herr : ∀ s m, search s m = Except.error ()) :
    queryTools hub search q k = queryTools hub (fun _ _ => Except.ok []) q k
      ∧ (hub.name_to_tool ≠ [] → 1 ≤ k → queryTools hub search q k ≠ []) := by
  have hpool : poolOf hub search q k = poolOf hub (fun _ _ => Except.ok []) q k := by
    unfold poolOf
    rw [herr]
  constructor
  · unfold queryTools
    rw [hpool]
  · intro hne hk hcontra
    have hlen := queryTools_length hub search q k hne
    rw [hcontra] at hlen
    have hn : 0 < hub.name_to_tool.length := List.length_pos.mpr hne
    simp at hlen
    omega

/-- Witness for C6 at a concrete one-tool hub and an always-raising
oracle. -/
theorem vector_failure_resilience_w :
    queryTools ⟨[("sdk__search", ⟨1, "sdk__search"⟩)], [("sdk__search", "search")]⟩
        (fun _ _ => Except.error ()) (.str "anything") 1
      = queryTools ⟨[("sdk__search", ⟨1, "sdk__search"⟩)], [("sdk__search", "search")]⟩
        (fun _ _ => Except.ok []) (.str "anything") 1
      ∧ queryTools ⟨[("sdk__search", ⟨1, "sdk__search"⟩)], [("sdk__search", "search")]⟩
        (fun _ _ => Except.error ()) (.str "anything") 1 ≠ [] :=
  ⟨(vector_failure_resilience _ (fun _ _ => Except.error ()) (.str "anything") 1
      fun _ _ => rfl).1,
   (vector_failure_resilience _ (fun _ _ => Except.error ()) (.str "anything") 1
      fun _ _ => rfl).2 (by decide) (by norm_num)⟩

/-! ### C2/C3 machinery: scores, ranks and the sort order -/

theorem boostFor_eq_spec (tt : List (String × String)) (tokens : List String) (name : String) :
    boostFor tt tokens name = specLexScore tokens name ((tt.lookup name).getD "") := by
  have hb1 : ((tokens.contains "search" || tokens.contains "who" || tokens.contains "what")
        && (strContains name "__search" || strEndsWith name "_search")) = true
      ↔ (("search" ∈ tokens ∨ "who" ∈ tokens ∨ "what" ∈ tokens)
          ∧ (strContains name "__search" = true ∨ strEndsWith name "_search" = true)) := by
    simp [or_assoc]
  have hb2 : ((["btc", "bitcoin", "eth", "exchange", "exchanges"].any
          fun term => tokens.contains term)
        && (strStartsWith name "ccxt_"
            || strContains (lowerStr ((tt.lookup name).getD "")) "crypto")) = true
      ↔ ((∃ term ∈ (["btc", "bitcoin", "eth", "exchange", "exchanges"] : List String),
            term ∈ tokens)
          ∧ (strStartsWith name "ccxt_" = true
              ∨ strContains (lowerStr ((tt.lookup name).getD "")) "crypto" = true)) := by
    simp
  simp only [boostFor, specLexScore]
  rw [if_congr hb1 rfl rfl, if_congr hb2 rfl rfl]

theorem entryBefore_iff (s₁ s₂ p₁ p₂ : Nat) (n₁ n₂ : String) :
    entryBefore (s₁, -(p₁ : Int), n₁) (s₂, -(p₂ : Int), n₂)
      ↔ (s₂ < s₁ ∨ (s₁ = s₂ ∧ (p₁ < p₂ ∨ (p₁ = p₂ ∧ n₂ ≤ n₁)))) := by
  show entryKey (s₂, -(p₂ : Int), n₂) ≤ entryKey (s₁, -(p₁ : Int), n₁) ↔ _
  unfold entryKey
  rw [Prod.Lex.le_iff]
  constructor
  · rintro (h | ⟨heq, h2⟩)
    · exact Or.inl h
    · rw [Prod.Lex.le_iff] at h2
      refine Or.inr ⟨heq.symm, ?_⟩
      rcases h2 with h2 | ⟨h2e, h2s⟩
      · have : (p₁ : Int) < p₂ := by simpa using h2
        exact Or.inl (by exact_mod_cast this)
      · have : (p₁ : Int) = p₂ := by
          have := neg_inj.mp h2e
          omega
        exact Or.inr ⟨by exact_mod_cast this, h2s⟩
  · rintro (h | ⟨heq, h2⟩)
    · exact Or.inl h
    · refine Or.inr ⟨heq.symm, ?_⟩
      rw [Prod.Lex.le_iff]
      rcases h2 with h2 | ⟨h2e, h2s⟩
      · exact Or.inl (by simp; exact_mod_cast h2)
      · exact Or.inr ⟨by simp [h2e], h2s⟩

theorem vecRankOf_lookup (nm : String) (hnm : nm ≠ "") :
    ∀ (rs : List String) (i : Nat) (acc : List (String × Nat)),
      (((pyEnumFrom i rs).foldl
          (fun acc p =>
            if p.2 ≠ "" ∧ acc.lookup p.2 = none then acc ++ [(p.2, p.1)] else acc)
          acc).lookup nm)
        = match acc.lookup nm with
          | some v => some v
          | none => firstIndexFrom i nm rs := by
  intro rs
  induction rs with
  | nil =>
    intro i acc
    cases h : acc.lookup nm <;> simp [pyEnumFrom, h, firstIndexFrom]
  | cons r rs ih =>
    intro i acc
    simp only [pyEnumFrom, List.foldl_cons]
    rw [ih]
    by_cases hr : r = nm
    · subst hr
      cases hacc : acc.lookup r with
      | some v =>
        rw [if_neg (by simp)]
        simp [hacc, firstIndexFrom]
      | none =>
        rw [if_pos ⟨hnm, rfl⟩]
        have hsome : (acc ++ [(r, i)]).lookup r = some i := by
          rw [List.lookup_append, hacc]
          simp [List.lookup]
        simp [hsome, firstIndexFrom]
    · have hbe : (nm == r) = false := beq_eq_false_iff_ne.mpr (Ne.symm hr)
      have hlook : ∀ acc' : List (String × Nat),
          (if r ≠ "" ∧ acc'.lookup r = none then acc' ++ [(r, i)] else acc').lookup nm
            = acc'.lookup nm := by
        intro acc'
        by_cases hc : r ≠ "" ∧ acc'.lookup r = none
        · rw [if_pos hc, List.lookup_append]
          cases h : acc'.lookup nm <;> simp [h, List.lookup, hbe]
        · rw [if_neg hc]
      rw [hlook]
      cases h : acc.lookup nm <;> simp [h, firstIndexFrom, hr]

/-- Central characterization of the ranker: `query_tools` returns the
`k`-prefix of a permutation of all registered names that is sorted by
descending post-boost score, then ascending vector rank (with the
`n + 1000` sentinel), then descending name. -/
theorem queryTools_ranked (hub : Hub) (search : SearchOracle) (q : PyVal) (k : Nat) :
    ∃ ranked : List String,
      ranked.Perm (dictKeys hub.name_to_tool)
      ∧ List.Sorted
          (claimBefore
            (boostFor hub.tool_text (pyTokens (normalizeQuery q)))
            (fun nm => ((vecRankOf (poolOf hub search q k)).lookup nm).getD
                (hub.name_to_tool.length + 1000)))
          ranked
      ∧ queryTools hub search q k
        = (ranked.take k).map (fun nm => (hub.name_to_tool.lookup nm).getD ⟨0, ""⟩) := by
  by_cases hempty : hub.name_to_tool.isEmpty
  · refine ⟨[], ?_, List.sorted_nil, ?_⟩
    · rw [List.isEmpty_iff.mp hempty]
      exact List.Perm.refl _
    · unfold queryTools
      rw [if_pos hempty]
      simp
  · set toks := pyTokens (normalizeQuery q) with htoksdef
    set pos : String → Nat :=
      fun nm => ((vecRankOf (poolOf hub search q k)).lookup nm).getD
        (hub.name_to_tool.length + 1000) with hposdef
    set score : String → Nat := fun nm => boostFor hub.tool_text toks nm with hscoredef
    set mk : String → ScoredEntry := fun nm => (score nm, -(pos nm : Int), nm) with hmkdef
    set scored := (dictKeys hub.name_to_tool).map mk with hscoreddef
    set sortedE := List.insertionSort entryBefore scored with hsorteddef
    refine ⟨sortedE.map (fun e => e.2.2), ?_, ?_, ?_⟩
    · have h1 : (sortedE.map fun e => e.2.2).Perm (scored.map fun e => e.2.2) :=
        (List.perm_insertionSort entryBefore scored).map _
      have h2 : (scored.map fun e => e.2.2) = dictKeys hub.name_to_tool := by
        rw [hscoreddef, List.map_map]
        have hfun : ((fun (e : ScoredEntry) => e.2.2) ∘ mk) = fun nm : String => nm := rfl
        rw [hfun, List.map_id']
      rwa [h2] at h1
    · have hs : List.Sorted entryBefore sortedE := List.sorted_insertionSort entryBefore scored
    -- every element of the sorted list is a canonical entry for its name
      have hmem : ∀ e ∈ sortedE, e = mk e.2.2 := by
        intro e he
        have hin : e ∈ scored := ((List.perm_insertionSort entryBefore scored).mem_iff).mp he
        rw [hscoreddef] at hin
        obtain ⟨nm, _, rfl⟩ := List.mem_map.mp hin
        rfl
      have hpair : List.Pairwise (fun e₁ e₂ => claimBefore score pos e₁.2.2 e₂.2.2) sortedE := by
        refine List.Pairwise.imp_of_mem ?_ hs
        intro a b ha hb hab
        rw [hmem a ha, hmem b hb] at hab
        exact (entryBefore_iff (score a.2.2) (score b.2.2) (pos a.2.2) (pos b.2.2)
          a.2.2 b.2.2).mp hab
      exact List.Pairwise.map _ (fun a b h => h) hpair
    · unfold queryTools
      rw [if_neg hempty, ← List.map_take]

theorem vecRankOf_lookup_total (rs : List String) (nm : String) (h : nm ≠ "") :
    (vecRankOf rs).lookup nm = firstIndexFrom 0 nm rs := by
  have hgen := vecRankOf_lookup nm h rs 0 []
  simpa [vecRankOf, pyEnum, List.lookup] using hgen

/-- C3.  On any hub whose registered names are non-empty strings (the
loader interface guarantees non-empty names), `query_tools` consults the
index for a pool of size `min(max(20, 3k), n)` and returns the `k`-prefix
of a name ranking that is a permutation of all registered names, sorted by
descending spec-side lexical score, then ascending first-position vector
rank with sentinel `n + 1000` for pool-absent tools, then the name as a
deterministic tertiary key. -/
theorem retrieval_ordering (hub : Hub) (search : SearchOracle) (q : PyVal) (k : Nat)
    (hnames : ∀ nm ∈ dictKeys hub.name_to_tool, nm ≠ "") :
    ∃ ranked : List String,
      ranked.Perm (dictKeys hub.name_to_tool)
      ∧ List.Sorted
          (claimBefore
            (fun nm => specLexScore (pyTokens (normalizeQuery q)) nm
                ((hub.tool_text.lookup nm).getD ""))
            (specVecPos (poolOf hub search q k) hub.name_to_tool.length))
          ranked
      ∧ queryTools hub search q k
        = (ranked.take k).map (fun nm => (hub.name_to_tool.lookup nm).getD ⟨0, ""⟩) := by
  obtain ⟨ranked, hperm, hsort, heq⟩ := queryTools_ranked hub search q k
  refine ⟨ranked, hperm, ?_, heq⟩
  refine List.Pairwise.imp_of_mem ?_ hsort
  intro a b ha hb hab
  have haK : a ≠ "" := hnames a (hperm.mem_iff.mp ha)
  have hbK : b ≠ "" := hnames b (hperm.mem_iff.mp hb)
  have hpa : ((vecRankOf (poolOf hub search q k)).lookup a).getD
        (hub.name_to_tool.length + 1000)
      = specVecPos (poolOf hub search q k) hub.name_to_tool.length a := by
    unfold specVecPos
    rw [vecRankOf_lookup_total _ _ haK]
  have hpb : ((vecRankOf (poolOf hub search q k)).lookup b).getD
        (hub.name_to_tool.length + 1000)
      = specVecPos (poolOf hub search q k) hub.name_to_tool.length b := by
    unfold specVecPos
    rw [vecRankOf_lookup_total _ _ hbK]
  unfold claimBefore at hab ⊢
  beta_reduce at hab ⊢
  rw [boostFor_eq_spec, boostFor_eq_spec, hpa, hpb] at hab
  exact hab

/-- Two-element permutations. -/
theorem perm_pair {α : Type} {a b n₁ n₂ : α} (h : [a, b].Perm [n₁, n₂]) :
    (a = n₁ ∧ b = n₂) ∨ (a = n₂ ∧ b = n₁) := by
  have ha : a ∈ [n₁, n₂] := h.mem_iff.mp (by simp)
  rcases (by simpa using ha : a = n₁ ∨ a = n₂) with rfl | rfl
  · left
    refine ⟨rfl, ?_⟩
    have h2 : [b].Perm [n₂] := h.cons_inv
    simpa using h2.mem_iff.mp (by simp)
  · right
    refine ⟨rfl, ?_⟩
    have h2 : [b].Perm [n₁] := (h.trans (List.Perm.swap a n₁ [])).cons_inv
    simpa using h2.mem_iff.mp (by simp)

theorem boost_scenario₁ (search : SearchOracle) :
    queryTools hub2 search (.str "who is the best?") 1 = [⟨1, "sdk__search"⟩] := by
  obtain ⟨ranked, hperm, hsort, heq⟩ :=
    queryTools_ranked hub2 search (.str "who is the best?") 1
  rw [show dictKeys hub2.name_to_tool = ["sdk__search", "ccxt_get_price"] from by decide]
    at hperm
  have hlen : ranked.length = 2 := by simpa using hperm.length_eq
  match ranked, hlen, hperm, hsort, heq with
  | [a, b], _, hperm, hsort, heq =>
    rcases perm_pair hperm with ⟨rfl, rfl⟩ | ⟨rfl, rfl⟩
    · rw [heq]
      decide
    · exfalso
      have hrel := List.rel_of_sorted_cons hsort "sdk__search" (by simp)
      have hs1 : boostFor hub2.tool_text
          (pyTokens (normalizeQuery (.str "who is the best?"))) "sdk__search" = 3 := by decide
      have hs2 : boostFor hub2.tool_text
          (pyTokens (normalizeQuery (.str "who is the best?"))) "ccxt_get_price" = 0 := by
        decide
      unfold claimBefore at hrel
      rw [hs1, hs2] at hrel
      rcases hrel with h | ⟨h, -⟩ <;> omega

theorem boost_scenario₂ (search : SearchOracle) :
    queryTools hub2 search (.str "latest btc exchange rates") 1 = [⟨2, "ccxt_get_price"⟩] := by
  obtain ⟨ranked, hperm, hsort, heq⟩ :=
    queryTools_ranked hub2 search (.str "latest btc exchange rates") 1
  rw [show dictKeys hub2.name_to_tool = ["sdk__search", "ccxt_get_price"] from by decide]
    at hperm
  have hlen : ranked.length = 2 := by simpa using hperm.length_eq
  match ranked, hlen, hperm, hsort, heq with
  | [a, b], _, hperm, hsort, heq =>
    rcases perm_pair hperm with ⟨rfl, rfl⟩ | ⟨rfl, rfl⟩
    · exfalso
      have hrel := List.rel_of_sorted_cons hsort "ccxt_get_price" (by simp)
      have hs1 : boostFor hub2.tool_text
          (pyTokens (normalizeQuery (.str "latest btc exchange rates"))) "sdk__search" = 0 := by
        decide
      have hs2 : boostFor hub2.tool_text
          (pyTokens (normalizeQuery (.str "latest btc exchange rates"))) "ccxt_get_price"
          = 5 := by decide
      unfold claimBefore at hrel
      rw [hs1, hs2] at hrel
      rcases hrel with h | ⟨h, -⟩ <;> omega
    · rw [heq]
      decide

/-- C2.  `query_tools` scores every registered tool by the spec's lexical
formula with its two keyword boosts (`boostFor` coincides with the
spec-side `specLexScore` on the composed index text), and on the spec's
two-tool scenario hub the `who`-query surfaces `sdk__search` first and the
`btc`-query surfaces `ccxt_get_price` first, with `k = 1`, for every
behaviour of the vector index. -/
theorem lexical_scoring :
    (∀ (tt : List (String × String)) (tokens : List String) (name : String),
        boostFor tt tokens name = specLexScore tokens name ((tt.lookup name).getD ""))
      ∧ (∀ search : SearchOracle,
          queryTools hub2 search (.str "who is the best?") 1 = [⟨1, "sdk__search"⟩])
      ∧ (∀ search : SearchOracle,
          queryTools hub2 search (.str "latest btc exchange rates") 1
            = [⟨2, "ccxt_get_price"⟩]) :=
  ⟨boostFor_eq_spec, boost_scenario₁, boost_scenario₂⟩

/-- Witness for C3 at the scenario hub, a concrete oracle and `k = 1`. -/
theorem retrieval_ordering_w :
    ∃ ranked : List String,
      ranked.Perm (dictKeys hub2.name_to_tool)
      ∧ List.Sorted
          (claimBefore
            (fun nm => specLexScore (pyTokens (normalizeQuery (.str "best tool"))) nm
                ((hub2.tool_text.lookup nm).getD ""))
            (specVecPos (poolOf hub2 (fun _ _ => Except.ok ["ccxt_get_price"]) (.str "best tool") 1)
              hub2.name_to_tool.length))
          ranked
      ∧ queryTools hub2 (fun _ _ => Except.ok ["ccxt_get_price"]) (.str "best tool") 1
        = (ranked.take 1).map (fun nm => (hub2.name_to_tool.lookup nm).getD ⟨0, ""⟩) :=
  retrieval_ordering hub2 (fun _ _ => Except.ok ["ccxt_get_price"]) (.str "best tool") 1
    (by decide)

end LangToolkit
